import Mathlib

/-!
Verification of the gunshot timestamp-detection pipeline of
`GunshotDetection/src/basicTimeStamping.py` (`detect_gunshots`).

The Python function is embedded shallowly over ℚ.  Samples, durations,
thresholds and timestamps are rational numbers; the NumPy array pipeline is
embedded as list computations; the two runtime exceptions the code can hit
(`range() arg 3 must not be zero` when the hop length is zero, and the
zero-size reduction error of `np.max` on an empty energy array) are embedded
as an `Except` error result.  The float quotient `0.0/0.0 = NaN` produced by
the in-place normalisation `energy /= np.max(energy)` on a silent signal is
embedded as `Option ℚ` with `none` playing NaN (every ordered comparison
against `none` is false, exactly as for NaN).
-/

namespace GunshotDetection

/-- Runtime errors reachable inside `detect_gunshots`: `rangeZeroStep` is the
`ValueError` raised by `range(0, n, 0)`, and `emptyMaxReduction` is the
`ValueError` raised by `np.max` on a zero-size array. -/
inductive PyError where
  | rangeZeroStep
  | emptyMaxReduction
deriving DecidableEq

/-- Truncation toward zero, the semantics of Python `int(...)` on a number. -/
def truncQ (q : ℚ) : ℤ := if 0 ≤ q then ⌊q⌋ else ⌈q⌉

/-- Round to the nearest integer, ties to even: the semantics of Python
`round(x)` (and of `round(x, n)` after scaling by `10 ^ n`). -/
def roundHalfEven (q : ℚ) : ℤ :=
  if q - ⌊q⌋ < 1 / 2 then ⌊q⌋
  else if 1 / 2 < q - ⌊q⌋ then ⌊q⌋ + 1
  else if ⌊q⌋ % 2 = 0 then ⌊q⌋ else ⌊q⌋ + 1

/-- Python `round(x, 3)`: round to three decimal places, ties to even. -/
def round3 (q : ℚ) : ℚ := (roundHalfEven (q * 1000) : ℚ) / 1000

/-- Line `frame_length = int(frame_duration * sr)` of the source. -/
def frameLength (fd : ℚ) (sr : ℤ) : ℤ := truncQ (fd * sr)

/-- Line `hop_length = frame_length // 2` of the source (Python floor
division). -/
def hopLength (fd : ℚ) (sr : ℤ) : ℤ := (frameLength fd sr).fdiv 2

/-- Python `range(0, n, hop)` for a positive stride `hop`: the frame start
positions `0, hop, 2*hop, ...` that are `< n`. -/
def frameStarts (n hop : ℕ) : List ℕ :=
  (List.range ((n + hop - 1) / hop)).map (· * hop)

/-- One term `np.sum(np.abs(y[i:i+frame_length])**2)` of the energy
comprehension: the sum of squares of the slice of length at most `fl`
starting at `i`. -/
def frameEnergy (y : List ℚ) (i fl : ℕ) : ℚ :=
  (((y.drop i).take fl).map (fun x => x ^ 2)).sum

/-- The raw energy array of the source: one energy per frame start produced
by `range(0, len(y), hop_length)`.  A negative stride yields an empty range
in Python, hence an empty energy array. -/
def frameEnergies (y : List ℚ) (fd : ℚ) (sr : ℤ) : List ℚ :=
  (if hopLength fd sr < 0 then [] else frameStarts y.length (hopLength fd sr).toNat).map
    (fun i => frameEnergy y i (frameLength fd sr).toNat)

/-- `np.max` on a nonempty array; the empty case never feeds this function
because `detect_gunshots` raises `emptyMaxReduction` first. -/
def pyMax : List ℚ → ℚ
  | [] => 0
  | x :: xs => xs.foldl max x

/-- Line `energy /= np.max(energy)` of the source.  When the maximum is zero
every entry is the float quotient `0.0/0.0 = NaN`, embedded as `none`. -/
def normalizeScores (energy : List ℚ) : List (Option ℚ) :=
  energy.map (fun e => if pyMax energy = 0 then none else some (e / pyMax energy))

/-- Normalised per-frame scores of a signal. -/
def normScores (y : List ℚ) (fd : ℚ) (sr : ℤ) : List (Option ℚ) :=
  normalizeScores (frameEnergies y fd sr)

/-- NumPy comparison `score > threshold`: false on NaN (`none`). -/
def nanGT (o : Option ℚ) (thr : ℚ) : Bool :=
  match o with
  | none => false
  | some v => decide (thr < v)

/-- Line `spikes = np.where(energy > energy_threshold)[0]`: the ascending
indices whose score strictly exceeds the threshold. -/
def spikeIndices (norm : List (Option ℚ)) (thr : ℚ) : List ℕ :=
  (List.range norm.length).filter (fun i => nanGT (norm.getD i none) thr)

/-- Line `timestamps = [round((i * hop_length) / sr, 3) for i in spikes]`. -/
def timestampsOf (y : List ℚ) (sr : ℤ) (fd thr : ℚ) : List ℚ :=
  (spikeIndices (normScores y fd sr) thr).map
    (fun i : ℕ => round3 ((((i : ℕ) : ℚ) * ((hopLength fd sr : ℤ) : ℚ)) / ((sr : ℤ) : ℚ)))

/-- The dedup loop of the source once `filtered` is nonempty: `last` is
`filtered[-1]`, and a candidate is appended iff `(t - filtered[-1]) >
min_time_between`. -/
def dedupeAux (sep last : ℚ) : List ℚ → List ℚ
  | [] => []
  | t :: rest =>
      if sep < t - last then t :: dedupeAux sep t rest else dedupeAux sep last rest

/-- The full dedup loop of the source: the first candidate is appended
because `not filtered` holds, after which `dedupeAux` takes over. -/
def dedupe (ts : List ℚ) (sep : ℚ) : List ℚ :=
  match ts with
  | [] => []
  | t :: rest => t :: dedupeAux sep t rest

/-- The body of `detect_gunshots` after `librosa.load`, over the loaded
sample list `y` and native sample rate `sr`.  The two `error` branches are
the Python `ValueError`s raised, in source order, by `range(0, len(y), 0)`
and by `np.max` of the empty energy array. -/
def detect_gunshots (y : List ℚ) (sr : ℤ) (fd thr sep : ℚ) :
    Except PyError (List ℚ) :=
  if hopLength fd sr = 0 then .error .rangeZeroStep
  else if frameEnergies y fd sr = [] then .error .emptyMaxReduction
  else .ok (dedupe (timestampsOf y sr fd thr) sep)

/-- Modelled from the spec (section 4.3): the greedy scan written with an
explicit `last` initialised to minus infinity, embedded as `Option ℚ` with
`none` for minus infinity (every finite candidate clears the gap test
against it). -/
def dedupeSpecGo (sep : ℚ) : Option ℚ → List ℚ → List ℚ
  | _, [] => []
  | none, t :: rest => t :: dedupeSpecGo sep (some t) rest
  | some l, t :: rest =>
      if sep < t - l then t :: dedupeSpecGo sep (some t) rest
      else dedupeSpecGo sep (some l) rest

/-- Modelled from the spec (section 4.3): the deduplicator pseudocode,
started with `last = -infinity`. -/
def dedupeSpec (ts : List ℚ) (sep : ℚ) : List ℚ := dedupeSpecGo sep none ts

/-! ## Basic facts about the deduplication loop -/

lemma dedupeAux_chain (sep last : ℚ) (ts : List ℚ) :
    List.Chain' (fun a b => sep < b - a) (last :: dedupeAux sep last ts) := by
  induction ts generalizing last with
  | nil => simp [dedupeAux]
  | cons t rest ih =>
    by_cases h : sep < t - last
    · rw [dedupeAux, if_pos h]
      exact (List.chain'_cons).mpr ⟨h, ih t⟩
    · rw [dedupeAux, if_neg h]
      exact ih last

lemma dedupe_chain (ts : List ℚ) (sep : ℚ) :
    List.Chain' (fun a b => sep < b - a) (dedupe ts sep) := by
  cases ts with
  | nil => simp [dedupe]
  | cons t rest => exact dedupeAux_chain sep t rest

lemma dedupeAux_sublist (sep last : ℚ) (ts : List ℚ) :
    List.Sublist (dedupeAux sep last ts) ts := by
  induction ts generalizing last with
  | nil => simp [dedupeAux]
  | cons t rest ih =>
    by_cases h : sep < t - last
    · rw [dedupeAux, if_pos h]
      exact (ih t).cons₂ t
    · rw [dedupeAux, if_neg h]
      exact (ih last).cons t

lemma dedupe_sublist (ts : List ℚ) (sep : ℚ) : List.Sublist (dedupe ts sep) ts := by
  cases ts with
  | nil => simp [dedupe]
  | cons t rest => exact (dedupeAux_sublist sep t rest).cons₂ t

lemma dedupe_ne_nil (ts : List ℚ) (sep : ℚ) (h : ts ≠ []) : dedupe ts sep ≠ [] := by
  cases ts with
  | nil => exact absurd rfl h
  | cons t rest => simp [dedupe]

lemma dedupeSpecGo_some (sep l : ℚ) (ts : List ℚ) :
    dedupeSpecGo sep (some l) ts = dedupeAux sep l ts := by
  induction ts generalizing l with
  | nil => rfl
  | cons t rest ih =>
    by_cases h : sep < t - l
    · rw [dedupeSpecGo, if_pos h, dedupeAux, if_pos h, ih t]
    · rw [dedupeSpecGo, if_neg h, dedupeAux, if_neg h, ih l]

/-- Every element of a chain hanging off `a` with gaps above a nonnegative
`sep` lies strictly more than `sep` above `a`. -/
lemma chain_gap_all (sep : ℚ) (h0 : 0 ≤ sep) :
    ∀ (l : List ℚ) (a : ℚ), List.Chain (fun x z => sep < z - x) a l →
      ∀ b ∈ l, sep < b - a := by
  intro l
  induction l with
  | nil => intro a _ b hb; simp at hb
  | cons c rest ih =>
    intro a hch b hb
    rw [List.chain_cons] at hch
    rcases List.mem_cons.mp hb with rfl | hb
    · exact hch.1
    · have := ih c hch.2 b hb
      have := hch.1
      linarith

lemma chain'_gap_pairwise (sep : ℚ) (h0 : 0 ≤ sep) (l : List ℚ)
    (hc : List.Chain' (fun a b => sep < b - a) l) :
    List.Pairwise (fun a b => a < b ∧ sep < b - a) l := by
  induction l with
  | nil => exact List.Pairwise.nil
  | cons a rest ih =>
    have hch : List.Chain (fun x z => sep < z - x) a rest := hc
    refine List.pairwise_cons.mpr ⟨?_, ih hc.tail⟩
    intro b hb
    have hgap := chain_gap_all sep h0 rest a hch b hb
    exact ⟨by linarith, hgap⟩

/-! ## Characterisation of successful runs -/

lemma detect_ok_iff (y : List ℚ) (sr : ℤ) (fd thr sep : ℚ) (r : List ℚ) :
    detect_gunshots y sr fd thr sep = .ok r ↔
      hopLength fd sr ≠ 0 ∧ frameEnergies y fd sr ≠ [] ∧
        r = dedupe (timestampsOf y sr fd thr) sep := by
  unfold detect_gunshots
  split_ifs with h1 h2
  · simp [h1]
  · simp [h1, h2]
  · simp [h1, h2, eq_comm]

lemma frameEnergies_of_nonneg (y : List ℚ) (fd : ℚ) (sr : ℤ)
    (h : 0 ≤ hopLength fd sr) :
    frameEnergies y fd sr = (frameStarts y.length (hopLength fd sr).toNat).map
      (fun i => frameEnergy y i (frameLength fd sr).toNat) := by
  unfold frameEnergies
  rw [if_neg (not_lt.mpr h)]

lemma hop_pos_of_ok {y : List ℚ} {sr : ℤ} {fd thr sep : ℚ} {r : List ℚ}
    (h : detect_gunshots y sr fd thr sep = .ok r) : 0 < hopLength fd sr := by
  obtain ⟨h1, h2, -⟩ := (detect_ok_iff y sr fd thr sep r).mp h
  rcases lt_trichotomy (hopLength fd sr) 0 with hlt | hz | hgt
  · exact absurd (by unfold frameEnergies; rw [if_pos hlt]; rfl) h2
  · exact absurd hz h1
  · exact hgt

/-- C1: the temporal deduplicator is exactly the greedy left-to-right scan of
the spec (accept a candidate iff it lies strictly more than `min_separation`
after the last accepted time, the first candidate always accepted), and on
the boundary scenario candidates 1.000 and 1.300 with separation 0.3 only
1.000 survives, while with separation 0.29999 both survive. -/
theorem dedupe_is_greedy_scan :
    (∀ (ts : List ℚ) (sep : ℚ), dedupe ts sep = dedupeSpec ts sep) ∧
    dedupe [1, 13/10] (3/10) = [1] ∧
    dedupe [1, 13/10] (29999/100000) = [1, 13/10] := by
  refine ⟨?_, ?_, ?_⟩
  · intro ts sep
    cases ts with
    | nil => rfl
    | cons t rest =>
      show t :: dedupeAux sep t rest = dedupeSpecGo sep none (t :: rest)
      rw [show dedupeSpecGo sep none (t :: rest) = t :: dedupeSpecGo sep (some t) rest
          from rfl, dedupeSpecGo_some]
  · norm_num [dedupe, dedupeAux]
  · norm_num [dedupe, dedupeAux]

/-- C2: on every successful run with a nonnegative `min_separation`, the
returned timestamp list is strictly ascending and any two entries differ by
strictly more than `min_separation`; this is a property of the deduplicated
output itself, so it survives the rounding of times to three decimals that
happens before deduplication. -/
theorem detect_output_separated :
    ∀ (y : List ℚ) (sr : ℤ) (fd thr sep : ℚ) (r : List ℚ), 0 ≤ sep →
      detect_gunshots y sr fd thr sep = .ok r →
      List.Pairwise (fun a b => a < b ∧ sep < b - a) r := by
  intro y sr fd thr sep r h0 hok
  obtain ⟨-, -, hr⟩ := (detect_ok_iff y sr fd thr sep r).mp hok
  subst hr
  exact chain'_gap_pairwise sep h0 _ (dedupe_chain _ _)

/-! ## Properties of rounding -/

lemma le_roundHalfEven (q : ℚ) : ⌊q⌋ ≤ roundHalfEven q := by
  unfold roundHalfEven
  split_ifs <;> omega

lemma roundHalfEven_le_floor_add_one (q : ℚ) : roundHalfEven q ≤ ⌊q⌋ + 1 := by
  unfold roundHalfEven
  split_ifs <;> omega

lemma roundHalfEven_mono {q r : ℚ} (h : q ≤ r) :
    roundHalfEven q ≤ roundHalfEven r := by
  have hf : ⌊q⌋ ≤ ⌊r⌋ := Int.floor_le_floor h
  rcases eq_or_lt_of_le hf with heq | hlt
  · unfold roundHalfEven
    rw [← heq]
    split_ifs <;> first | omega | linarith
  · calc roundHalfEven q ≤ ⌊q⌋ + 1 := roundHalfEven_le_floor_add_one q
      _ ≤ ⌊r⌋ := by omega
      _ ≤ roundHalfEven r := le_roundHalfEven r

lemma roundHalfEven_le_add_half (q : ℚ) : (roundHalfEven q : ℚ) ≤ q + 1 / 2 := by
  have h1 : (⌊q⌋ : ℚ) ≤ q := Int.floor_le q
  unfold roundHalfEven
  split_ifs <;> push_cast <;> linarith

lemma roundHalfEven_nonneg {q : ℚ} (h : 0 ≤ q) : 0 ≤ roundHalfEven q := by
  have h1 : 0 ≤ ⌊q⌋ := Int.floor_nonneg.mpr h
  have h2 := le_roundHalfEven q
  omega

lemma round3_mono {q r : ℚ} (h : q ≤ r) : round3 q ≤ round3 r := by
  unfold round3
  have h1 := roundHalfEven_mono (show q * 1000 ≤ r * 1000 by linarith)
  have h2 : (roundHalfEven (q * 1000) : ℚ) ≤ (roundHalfEven (r * 1000) : ℚ) := by
    exact_mod_cast h1
  linarith

lemma round3_nonneg {q : ℚ} (h : 0 ≤ q) : 0 ≤ round3 q := by
  unfold round3
  have h1 : (0 : ℤ) ≤ roundHalfEven (q * 1000) := roundHalfEven_nonneg (by linarith)
  have h2 : (0 : ℚ) ≤ (roundHalfEven (q * 1000) : ℚ) := by exact_mod_cast h1
  linarith

lemma round3_le (q : ℚ) : round3 q ≤ q + 1 / 2000 := by
  unfold round3
  have h1 := roundHalfEven_le_add_half (q * 1000)
  linarith

/-! ## Greedy optimality of the deduplication scan -/

lemma dedupeAux_max (sep : ℚ) :
    ∀ (T : List ℚ), List.Pairwise (· ≤ ·) T → ∀ (M : List ℚ) (l : ℚ),
      List.Sublist M T →
      List.Chain' (fun a b => sep < b - a) M →
      (∀ m ∈ M.head?, sep < m - l) →
      M.length ≤ (dedupeAux sep l T).length := by
  intro T
  induction T with
  | nil =>
    intro _ M l hsub _ _
    rw [List.sublist_nil.mp hsub]
    simp [dedupeAux]
  | cons t T' ih =>
    intro hsort M l hsub hchain hhead
    have hsort' := (List.pairwise_cons.mp hsort).2
    have hle := (List.pairwise_cons.mp hsort).1
    cases M with
    | nil => simp
    | cons m M' =>
      cases hsub with
      | cons₂ _ hsub' =>
        have hacc : sep < t - l := hhead t (by simp)
        rw [dedupeAux, if_pos hacc]
        have hrec := ih hsort' M' t hsub' hchain.tail
          (fun m' hm' => (List.chain'_cons'.mp hchain).1 m' hm')
        simp only [List.length_cons]
        omega
      | cons _ hsub' =>
        by_cases hacc : sep < t - l
        · rw [dedupeAux, if_pos hacc]
          have hmem : m ∈ T' := hsub'.subset (List.mem_cons_self m M')
          have htm : t ≤ m := hle m hmem
          have hsubM' : List.Sublist M' T' := (List.sublist_cons_self m M').trans hsub'
          have hrec := ih hsort' M' t hsubM' hchain.tail
            (fun m' hm' => by
              have hg := (List.chain'_cons'.mp hchain).1 m' hm'
              linarith)
          simp only [List.length_cons]
          omega
        · rw [dedupeAux, if_neg hacc]
          exact ih hsort' (m :: M') l hsub' hchain hhead

lemma dedupe_max (sep : ℚ) (T M : List ℚ) (hsub : List.Sublist M T)
    (hsort : List.Pairwise (· ≤ ·) T)
    (hchain : List.Chain' (fun a b => sep < b - a) M) :
    M.length ≤ (dedupe T sep).length := by
  cases T with
  | nil =>
    rw [List.sublist_nil.mp hsub]
    simp
  | cons t T' =>
    have hsort' := (List.pairwise_cons.mp hsort).2
    have hle := (List.pairwise_cons.mp hsort).1
    cases M with
    | nil => simp
    | cons m M' =>
      show (m :: M').length ≤ (t :: dedupeAux sep t T').length
      cases hsub with
      | cons₂ _ hsub' =>
        have hrec := dedupeAux_max sep T' hsort' M' t hsub' hchain.tail
          (fun m' hm' => (List.chain'_cons'.mp hchain).1 m' hm')
        simp only [List.length_cons]
        omega
      | cons _ hsub' =>
        have hmem : m ∈ T' := hsub'.subset (List.mem_cons_self m M')
        have htm : t ≤ m := hle m hmem
        have hsubM' : List.Sublist M' T' := (List.sublist_cons_self m M').trans hsub'
        have hrec := dedupeAux_max sep T' hsort' M' t hsubM' hchain.tail
          (fun m' hm' => by
            have hg := (List.chain'_cons'.mp hchain).1 m' hm'
            linarith)
        simp only [List.length_cons]
        omega

/-! ## Monotonicity ingredients -/

lemma spikeIndices_antitone (norm : List (Option ℚ)) {t1 t2 : ℚ} (h : t1 ≤ t2) :
    List.Sublist (spikeIndices norm t2) (spikeIndices norm t1) := by
  unfold spikeIndices
  apply List.monotone_filter_right
  intro i hi
  cases hgd : norm.getD i none with
  | none => rw [hgd] at hi; exact absurd hi (by simp [nanGT])
  | some v =>
    rw [hgd] at hi
    simp only [nanGT, decide_eq_true_eq] at hi ⊢
    linarith

lemma timestampsOf_sorted (y : List ℚ) (sr : ℤ) (fd thr : ℚ)
    (hsr : 0 < sr) (hhop : 0 ≤ hopLength fd sr) :
    List.Pairwise (· ≤ ·) (timestampsOf y sr fd thr) := by
  unfold timestampsOf
  apply List.Pairwise.map (R := fun i j : ℕ => i < j)
  · intro a b hab
    apply round3_mono
    have hh : (0 : ℚ) ≤ ((hopLength fd sr : ℤ) : ℚ) := by exact_mod_cast hhop
    have hsr' : (0 : ℚ) < ((sr : ℤ) : ℚ) := by exact_mod_cast hsr
    have hab' : (a : ℚ) ≤ (b : ℚ) := by exact_mod_cast hab.le
    have hm : (a : ℚ) * ((hopLength fd sr : ℤ) : ℚ) ≤ (b : ℚ) * ((hopLength fd sr : ℤ) : ℚ) :=
      mul_le_mul_of_nonneg_right hab' hh
    exact (div_le_div_iff_of_pos_right hsr').mpr hm
  · unfold spikeIndices
    exact (List.sorted_lt_range _).filter _

/-- C7: with the positive sample rate the data model prescribes, raising the
energy threshold can only shrink the list of returned timestamps: whenever
two runs on the same signal and parameters succeed with thresholds
`t1 ≤ t2`, the second returns at most as many timestamps as the first. -/
theorem detect_threshold_antitone :
    ∀ (y : List ℚ) (sr : ℤ) (fd t1 t2 sep : ℚ) (r1 r2 : List ℚ),
      0 < sr → t1 ≤ t2 →
      detect_gunshots y sr fd t1 sep = .ok r1 →
      detect_gunshots y sr fd t2 sep = .ok r2 →
      r2.length ≤ r1.length := by
  intro y sr fd t1 t2 sep r1 r2 hsr ht h1 h2
  have hhop := hop_pos_of_ok h1
  obtain ⟨-, -, hr1⟩ := (detect_ok_iff y sr fd t1 sep r1).mp h1
  obtain ⟨-, -, hr2⟩ := (detect_ok_iff y sr fd t2 sep r2).mp h2
  subst hr1
  subst hr2
  have hsub : List.Sublist (timestampsOf y sr fd t2) (timestampsOf y sr fd t1) := by
    unfold timestampsOf
    exact (spikeIndices_antitone _ ht).map _
  exact dedupe_max sep (timestampsOf y sr fd t1) _
    ((dedupe_sublist _ _).trans hsub)
    (timestampsOf_sorted y sr fd t1 hsr hhop.le)
    (dedupe_chain _ _)

/-- C8: with the positive sample rate the data model prescribes, raising the
minimum separation can only shrink the list of returned timestamps: whenever
two runs on the same signal and parameters succeed with separations
`s1 ≤ s2`, the second returns at most as many timestamps as the first. -/
theorem detect_separation_antitone :
    ∀ (y : List ℚ) (sr : ℤ) (fd thr s1 s2 : ℚ) (r1 r2 : List ℚ),
      0 < sr → s1 ≤ s2 →
      detect_gunshots y sr fd thr s1 = .ok r1 →
      detect_gunshots y sr fd thr s2 = .ok r2 →
      r2.length ≤ r1.length := by
  intro y sr fd thr s1 s2 r1 r2 hsr hs h1 h2
  have hhop := hop_pos_of_ok h1
  obtain ⟨-, -, hr1⟩ := (detect_ok_iff y sr fd thr s1 r1).mp h1
  obtain ⟨-, -, hr2⟩ := (detect_ok_iff y sr fd thr s2 r2).mp h2
  subst hr1
  subst hr2
  refine dedupe_max s1 (timestampsOf y sr fd thr) _
    (dedupe_sublist _ _)
    (timestampsOf_sorted y sr fd thr hsr hhop.le)
    ((dedupe_chain _ _).imp ?_)
  intro a b hab
  linarith

/-! ## The running maximum used by normalisation -/

lemma foldl_max_mem (xs : List ℚ) (a : ℚ) : xs.foldl max a ∈ a :: xs := by
  induction xs generalizing a with
  | nil => simp
  | cons b xs ih =>
    rw [List.foldl_cons]
    rcases List.mem_cons.mp (ih (max a b)) with h1 | h1
    · rw [h1]
      rcases max_choice a b with hm | hm <;> rw [hm] <;> simp
    · simp [h1]

lemma pyMax_mem (l : List ℚ) (h : l ≠ []) : pyMax l ∈ l := by
  cases l with
  | nil => exact absurd rfl h
  | cons x xs => exact foldl_max_mem xs x

lemma le_foldl_max (xs : List ℚ) (a : ℚ) : a ≤ xs.foldl max a := by
  induction xs generalizing a with
  | nil => simp
  | cons b xs ih => exact le_trans (le_max_left a b) (ih (max a b))

lemma mem_le_foldl_max (xs : List ℚ) (a x : ℚ) (hx : x ∈ xs) : x ≤ xs.foldl max a := by
  induction xs generalizing a with
  | nil => simp at hx
  | cons b xs ih =>
    rcases List.mem_cons.mp hx with rfl | hx
    · exact le_trans (le_max_right a x) (le_foldl_max xs (max a x))
    · exact ih (max a b) hx

lemma le_pyMax (l : List ℚ) (x : ℚ) (hx : x ∈ l) : x ≤ pyMax l := by
  cases l with
  | nil => simp at hx
  | cons a xs =>
    rcases List.mem_cons.mp hx with rfl | hx
    · exact le_foldl_max xs x
    · exact mem_le_foldl_max xs a x hx

/-! ## Frame geometry -/

lemma frameStarts_length (n h : ℕ) : (frameStarts n h).length = (n + h - 1) / h := by
  simp [frameStarts]

lemma hop_le_frameLength (fd : ℚ) (sr : ℤ) :
    2 * hopLength fd sr ≤ frameLength fd sr := by
  have h1 : hopLength fd sr = frameLength fd sr / 2 := by
    unfold hopLength
    exact Int.fdiv_eq_ediv _ (by norm_num)
  have h2 := Int.ediv_add_emod (frameLength fd sr) 2
  have h3 := Int.emod_nonneg (frameLength fd sr) (show (2 : ℤ) ≠ 0 by norm_num)
  omega

lemma exists_frame_covering (n h : ℕ) (hh : 0 < h) (j : ℕ) (hj : j < n) :
    ∃ k, k < (n + h - 1) / h ∧ k * h ≤ j ∧ j < k * h + h := by
  refine ⟨j / h, ?_, Nat.div_mul_le_self j h, ?_⟩
  · have h3 : n + h - 1 = n - 1 + h := by omega
    rw [h3, Nat.add_div_right _ hh]
    have h1 : j / h ≤ (n - 1) / h := Nat.div_le_div_right (by omega)
    omega
  · have h4 := Nat.div_add_mod j h
    have h5 := Nat.mod_lt j hh
    have h6 : j / h * h = h * (j / h) := by ring
    omega

lemma frame_index_mul_lt (n h i : ℕ) (hh : 0 < h) (hi : i < (n + h - 1) / h) :
    i * h < n := by
  have h1 : (i + 1) * h ≤ ((n + h - 1) / h) * h :=
    Nat.mul_le_mul_right h (by omega)
  have h2 : ((n + h - 1) / h) * h ≤ n + h - 1 := Nat.div_mul_le_self _ _
  have h3 : 0 < (n + h - 1) / h := lt_of_le_of_lt (Nat.zero_le _) hi
  have h4 : h ≤ n + h - 1 := by
    by_contra hc
    push_neg at hc
    have := Nat.div_eq_of_lt hc
    omega
  have h5 : (i + 1) * h = i * h + h := by ring
  omega

lemma frameEnergy_ge_sq (y : List ℚ) (i fl j : ℕ) (hij : i ≤ j) (hjfl : j < i + fl)
    (hj : j < y.length) : y[j] ^ 2 ≤ frameEnergy y i fl := by
  obtain ⟨d, rfl⟩ : ∃ d, j = i + d := ⟨j - i, by omega⟩
  unfold frameEnergy
  have hlen : d < ((y.drop i).take fl).length := by
    rw [List.length_take, List.length_drop]
    omega
  have hmem : y[i + d] ∈ (y.drop i).take fl := by
    rw [List.mem_iff_getElem]
    refine ⟨d, hlen, ?_⟩
    rw [List.getElem_take, List.getElem_drop]
  apply List.single_le_sum
  · intro a ha
    obtain ⟨b, -, rfl⟩ := List.mem_map.mp ha
    positivity
  · exact List.mem_map_of_mem _ hmem

/-! ## Membership facts about spike indices -/

lemma spikeIndices_lt (norm : List (Option ℚ)) (thr : ℚ) (i : ℕ)
    (h : i ∈ spikeIndices norm thr) : i < norm.length := by
  unfold spikeIndices at h
  exact List.mem_range.mp (List.mem_filter.mp h).1

lemma normScores_length (y : List ℚ) (fd : ℚ) (sr : ℤ) :
    (normScores y fd sr).length = (frameEnergies y fd sr).length := by
  unfold normScores normalizeScores
  rw [List.length_map]

/-- C9: if the signal has at least one nonzero sample and the threshold is
strictly below 1, then any successful run returns at least one timestamp:
the maximal frame normalises to exactly 1, which exceeds the threshold, and
the greedy scan always keeps the first candidate. -/
theorem detect_nonzero_nonempty :
    ∀ (y : List ℚ) (sr : ℤ) (fd thr sep : ℚ) (r : List ℚ),
      (∃ x ∈ y, x ≠ 0) → thr < 1 →
      detect_gunshots y sr fd thr sep = .ok r → r ≠ [] := by
  intro y sr fd thr sep r hx hthr hok
  have hhop := hop_pos_of_ok hok
  obtain ⟨-, hne, hr⟩ := (detect_ok_iff y sr fd thr sep r).mp hok
  subst hr
  apply dedupe_ne_nil
  unfold timestampsOf
  rw [ne_eq, List.map_eq_nil_iff]
  obtain ⟨x, hxy, hx0⟩ := hx
  obtain ⟨j, hj, rfl⟩ := List.mem_iff_getElem.mp hxy
  have hEeq := frameEnergies_of_nonneg y fd sr hhop.le
  have hNpos : 0 < (hopLength fd sr).toNat := by omega
  have hfl2 := hop_le_frameLength fd sr
  have hNfl : (hopLength fd sr).toNat ≤ (frameLength fd sr).toNat := by omega
  obtain ⟨k, hkK, hk1, hk2⟩ :=
    exists_frame_covering y.length (hopLength fd sr).toNat hNpos j hj
  have hstart : k * (hopLength fd sr).toNat ∈ frameStarts y.length (hopLength fd sr).toNat := by
    unfold frameStarts
    exact List.mem_map_of_mem _ (List.mem_range.mpr hkK)
  have hEmem : frameEnergy y (k * (hopLength fd sr).toNat) (frameLength fd sr).toNat ∈
      frameEnergies y fd sr := by
    rw [hEeq]
    exact List.mem_map_of_mem _ hstart
  have hsq : y[j] ^ 2 ≤ frameEnergy y (k * (hopLength fd sr).toNat) (frameLength fd sr).toNat :=
    frameEnergy_ge_sq y _ _ j hk1 (by omega) hj
  have hsqpos : 0 < y[j] ^ 2 := by positivity
  have hmpos : 0 < pyMax (frameEnergies y fd sr) :=
    lt_of_lt_of_le hsqpos (le_trans hsq (le_pyMax _ _ hEmem))
  obtain ⟨idx, hidx, hidxeq⟩ :=
    List.mem_iff_getElem.mp (pyMax_mem (frameEnergies y fd sr) hne)
  have hlen : idx < (normScores y fd sr).length := by
    rw [normScores_length]
    exact hidx
  have hnorm : (normScores y fd sr).getD idx none = some 1 := by
    rw [List.getD_eq_getElem _ _ hlen]
    unfold normScores normalizeScores
    rw [List.getElem_map]
    rw [if_neg (ne_of_gt hmpos), hidxeq, div_self (ne_of_gt hmpos)]
  have hspike : idx ∈ spikeIndices (normScores y fd sr) thr := by
    unfold spikeIndices
    rw [List.mem_filter]
    exact ⟨List.mem_range.mpr hlen, by rw [hnorm]; simp [nanGT, hthr]⟩
  exact List.ne_nil_of_mem hspike

/-- C10: with a positive sample rate, every returned timestamp has the form
`round3(i * hop_length / sr)` for a frame index `i` whose start sample
`i * hop_length` lies inside the signal; consequently it is nonnegative and
exceeds the signal duration `len(y)/sr` by at most the rounding granularity
`1/2000 = 0.0005`. -/
theorem detect_timestamp_form :
    ∀ (y : List ℚ) (sr : ℤ) (fd thr sep : ℚ) (r : List ℚ), 0 < sr →
      detect_gunshots y sr fd thr sep = .ok r →
      ∀ t ∈ r,
        (∃ i : ℕ,
          t = round3 ((((i : ℕ) : ℚ) * ((hopLength fd sr : ℤ) : ℚ)) / ((sr : ℤ) : ℚ)) ∧
          (i : ℤ) * hopLength fd sr < (y.length : ℤ)) ∧
        0 ≤ t ∧ t ≤ (y.length : ℚ) / ((sr : ℤ) : ℚ) + 1 / 2000 := by
  intro y sr fd thr sep r hsr hok t ht
  have hhop := hop_pos_of_ok hok
  obtain ⟨-, hne, hr⟩ := (detect_ok_iff y sr fd thr sep r).mp hok
  subst hr
  have htts : t ∈ timestampsOf y sr fd thr := (dedupe_sublist _ _).subset ht
  unfold timestampsOf at htts
  obtain ⟨i, hi, rfl⟩ := List.mem_map.mp htts
  have hiK : i < (normScores y fd sr).length := spikeIndices_lt _ _ _ hi
  have hNpos : 0 < (hopLength fd sr).toNat := by omega
  have hElen : (frameEnergies y fd sr).length =
      (y.length + (hopLength fd sr).toNat - 1) / (hopLength fd sr).toNat := by
    rw [frameEnergies_of_nonneg y fd sr hhop.le, List.length_map, frameStarts_length]
  have hmul : i * (hopLength fd sr).toNat < y.length := by
    apply frame_index_mul_lt _ _ _ hNpos
    rw [← hElen, ← normScores_length]
    exact hiK
  have hin : (i : ℤ) * hopLength fd sr < (y.length : ℤ) := by
    have hcast : ((i * (hopLength fd sr).toNat : ℕ) : ℤ) < ((y.length : ℕ) : ℤ) := by
      exact_mod_cast hmul
    rw [Nat.cast_mul, Int.toNat_of_nonneg hhop.le] at hcast
    exact hcast
  have hhq : (0 : ℚ) < ((hopLength fd sr : ℤ) : ℚ) := by exact_mod_cast hhop
  have hsq : (0 : ℚ) < ((sr : ℤ) : ℚ) := by exact_mod_cast hsr
  have harg : (0 : ℚ) ≤ ((i : ℕ) : ℚ) * ((hopLength fd sr : ℤ) : ℚ) / ((sr : ℤ) : ℚ) := by
    apply div_nonneg _ hsq.le
    exact mul_nonneg (by positivity) hhq.le
  have hlt : ((i : ℕ) : ℚ) * ((hopLength fd sr : ℤ) : ℚ) < (y.length : ℚ) := by
    exact_mod_cast hin
  have hdiv : ((i : ℕ) : ℚ) * ((hopLength fd sr : ℤ) : ℚ) / ((sr : ℤ) : ℚ) ≤
      (y.length : ℚ) / ((sr : ℤ) : ℚ) :=
    (div_le_div_iff_of_pos_right hsq).mpr hlt.le
  refine ⟨⟨i, rfl, hin⟩, round3_nonneg harg, ?_⟩
  calc round3 (((i : ℕ) : ℚ) * ((hopLength fd sr : ℤ) : ℚ) / ((sr : ℤ) : ℚ))
      ≤ ((i : ℕ) : ℚ) * ((hopLength fd sr : ℤ) : ℚ) / ((sr : ℤ) : ℚ) + 1 / 2000 :=
        round3_le _
    _ ≤ (y.length : ℚ) / ((sr : ℤ) : ℚ) + 1 / 2000 := by linarith

/-! ## Concrete evaluations used by witnesses and counterexamples -/

lemma hfl21 : frameLength 2 1 = 2 := by norm_num [frameLength, truncQ]

lemma hhop21 : hopLength 2 1 = 1 := by unfold hopLength; rw [hfl21]; decide

lemma evalE_a : frameEnergies [1, 0, 0, 0] 2 1 = [1, 0, 0, 0] := by
  unfold frameEnergies
  rw [hhop21, hfl21]
  norm_num [frameStarts, frameEnergy, List.range_succ, Int.toNat_one,
    show Int.toNat 2 = 2 from rfl]

lemma evalN_a : normScores [1, 0, 0, 0] 2 1 = [some 1, some 0, some 0, some 0] := by
  unfold normScores normalizeScores
  rw [evalE_a]
  norm_num [pyMax, max_def]

lemma evalS_a : spikeIndices [some 1, some 0, some 0, some 0] (3/5) = [0] := by
  unfold spikeIndices
  norm_num [List.range_succ, nanGT]

lemma evalT_a : timestampsOf [1, 0, 0, 0] 1 2 (3/5) = [0] := by
  unfold timestampsOf
  rw [evalN_a, evalS_a, hhop21]
  norm_num [round3, roundHalfEven]

lemma evalD_a : detect_gunshots [1, 0, 0, 0] 1 2 (3/5) (3/10) = .ok [0] := by
  unfold detect_gunshots
  rw [hhop21, evalE_a, evalT_a]
  norm_num [dedupe, dedupeAux, List.cons_ne_nil]

lemma evalS2_a : spikeIndices [some 1, some 0, some 0, some 0] 2 = [] := by
  unfold spikeIndices
  norm_num [List.range_succ, nanGT]

lemma evalT2_a : timestampsOf [1, 0, 0, 0] 1 2 2 = [] := by
  unfold timestampsOf
  rw [evalN_a, evalS2_a]
  rfl

lemma evalD2_a : detect_gunshots [1, 0, 0, 0] 1 2 2 (3/10) = .ok [] := by
  unfold detect_gunshots
  rw [hhop21, evalE_a, evalT2_a]
  norm_num [dedupe, List.cons_ne_nil]

lemma evalE_b : frameEnergies [1, 0, 0, 0, 1, 0, 0, 0] 2 1 = [1, 0, 0, 1, 1, 0, 0, 0] := by
  unfold frameEnergies
  rw [hhop21, hfl21]
  norm_num [frameStarts, frameEnergy, List.range_succ, Int.toNat_one,
    show Int.toNat 2 = 2 from rfl]

lemma evalN_b : normScores [1, 0, 0, 0, 1, 0, 0, 0] 2 1 =
    [some 1, some 0, some 0, some 1, some 1, some 0, some 0, some 0] := by
  unfold normScores normalizeScores
  rw [evalE_b]
  norm_num [pyMax, max_def]

lemma evalS_b : spikeIndices [some 1, some 0, some 0, some 1, some 1, some 0, some 0, some 0]
    (3/5) = [0, 3, 4] := by
  unfold spikeIndices
  norm_num [List.range_succ, nanGT]

lemma evalT_b : timestampsOf [1, 0, 0, 0, 1, 0, 0, 0] 1 2 (3/5) = [0, 3, 4] := by
  unfold timestampsOf
  rw [evalN_b, evalS_b, hhop21]
  norm_num [round3, roundHalfEven]

lemma evalD_b1 : detect_gunshots [1, 0, 0, 0, 1, 0, 0, 0] 1 2 (3/5) (1/2) = .ok [0, 3, 4] := by
  unfold detect_gunshots
  rw [hhop21, evalE_b, evalT_b]
  norm_num [dedupe, dedupeAux, List.cons_ne_nil]

lemma evalD_b2 : detect_gunshots [1, 0, 0, 0, 1, 0, 0, 0] 1 2 (3/5) 10 = .ok [0] := by
  unfold detect_gunshots
  rw [hhop21, evalE_b, evalT_b]
  norm_num [dedupe, dedupeAux, List.cons_ne_nil]

lemma hflneg : frameLength (-2) (-1) = 2 := by norm_num [frameLength, truncQ]

lemma hhopneg : hopLength (-2) (-1) = 1 := by unfold hopLength; rw [hflneg]; decide

lemma evalE_d : frameEnergies [1, 0, 0, 0] (-2) (-1) = [1, 0, 0, 0] := by
  unfold frameEnergies
  rw [hhopneg, hflneg]
  norm_num [frameStarts, frameEnergy, List.range_succ, Int.toNat_one,
    show Int.toNat 2 = 2 from rfl]

lemma evalN_d : normScores [1, 0, 0, 0] (-2) (-1) = [some 1, some 0, some 0, some 0] := by
  unfold normScores normalizeScores
  rw [evalE_d]
  norm_num [pyMax, max_def]

lemma evalT_d : timestampsOf [1, 0, 0, 0] (-1) (-2) (3/5) = [0] := by
  unfold timestampsOf
  rw [evalN_d, evalS_a, hhopneg]
  norm_num [round3, roundHalfEven]

lemma evalD_d : detect_gunshots [1, 0, 0, 0] (-1) (-2) (3/5) (3/10) = .ok [0] := by
  unfold detect_gunshots
  rw [hhopneg, evalE_d, evalT_d]
  norm_num [dedupe, dedupeAux, List.cons_ne_nil]

lemma evalE_nil : frameEnergies [] 2 1 = [] := by
  unfold frameEnergies
  rw [hhop21]
  norm_num [frameStarts, Int.toNat_one]

lemma evalD_nil : detect_gunshots [] 1 2 (3/5) (3/10) = .error .emptyMaxReduction := by
  unfold detect_gunshots
  rw [hhop21, evalE_nil]
  norm_num

lemma evalE_z : frameEnergies [0, 0, 0, 0] 2 1 = [0, 0, 0, 0] := by
  unfold frameEnergies
  rw [hhop21, hfl21]
  norm_num [frameStarts, frameEnergy, List.range_succ, Int.toNat_one,
    show Int.toNat 2 = 2 from rfl]

lemma evalN_z : normScores [0, 0, 0, 0] 2 1 = [none, none, none, none] := by
  unfold normScores normalizeScores
  rw [evalE_z]
  norm_num [pyMax, max_def]

lemma hhop11 : hopLength 1 1 = 0 := by
  unfold hopLength
  rw [show frameLength 1 1 = 1 by norm_num [frameLength, truncQ]]
  decide

/-! ## Degenerate signals -/

lemma frameEnergy_zero (y : List ℚ) (i fl : ℕ) (h : ∀ x ∈ y, x = 0) :
    frameEnergy y i fl = 0 := by
  unfold frameEnergy
  apply List.sum_eq_zero
  intro a ha
  obtain ⟨b, hb, rfl⟩ := List.mem_map.mp ha
  have : b ∈ y := List.drop_subset i y (List.take_subset fl (y.drop i) hb)
  rw [h b this]
  norm_num

lemma pyMax_eq_zero_of (l : List ℚ) (h : ∀ e ∈ l, e = 0) : pyMax l = 0 := by
  cases hl : l with
  | nil => rfl
  | cons x xs =>
    rw [← hl]
    exact h _ (pyMax_mem l (by rw [hl]; simp))

lemma getD_none_of_all_none (l : List (Option ℚ)) (h : ∀ s ∈ l, s = none) (i : ℕ) :
    l.getD i none = none := by
  rcases lt_or_le i l.length with hi | hi
  · rw [List.getD_eq_getElem _ _ hi]
    exact h _ (List.getElem_mem hi)
  · exact List.getD_eq_default l none hi

lemma frameEnergies_ne_nil (y : List ℚ) (fd : ℚ) (sr : ℤ)
    (hy : y ≠ []) (hhop : 0 < hopLength fd sr) : frameEnergies y fd sr ≠ [] := by
  rw [frameEnergies_of_nonneg y fd sr hhop.le]
  rw [ne_eq, List.map_eq_nil_iff]
  unfold frameStarts
  rw [List.map_eq_nil_iff, ← ne_eq]
  have hn : 0 < y.length := List.length_pos.mpr hy
  have hN : 0 < (hopLength fd sr).toNat := by omega
  have hK : 1 ≤ (y.length + (hopLength fd sr).toNat - 1) / (hopLength fd sr).toNat :=
    (Nat.one_le_div_iff hN).mpr (by omega)
  intro hc
  have := congrArg List.length hc
  rw [List.length_range, List.length_nil] at this
  omega

/-! ## Claims about degenerate inputs and the frame length -/

/-- C3 counterexample: on the empty signal the code does not return an empty
timestamp sequence: the max-reduction over the empty energy array raises,
so the run ends in an error, not in `ok []`. -/
theorem detect_empty_signal_raises :
    detect_gunshots [] 1 2 (3/5) (3/10) = .error .emptyMaxReduction ∧
    (Except.error .emptyMaxReduction : Except PyError (List ℚ)) ≠ .ok [] :=
  ⟨evalD_nil, by simp⟩

/-- C3 amended: the empty signal never produces a result at all: for every
parameter choice `detect_gunshots` raises an error — the range-step error
when the hop length is zero, the empty-reduction error otherwise. -/
theorem detect_empty_signal_errors :
    ∀ (sr : ℤ) (fd thr sep : ℚ), ∃ e, detect_gunshots [] sr fd thr sep = .error e := by
  intro sr fd thr sep
  by_cases h0 : hopLength fd sr = 0
  · exact ⟨.rangeZeroStep, by unfold detect_gunshots; rw [if_pos h0]⟩
  · refine ⟨.emptyMaxReduction, ?_⟩
    have hE : frameEnergies [] fd sr = [] := by
      unfold frameEnergies
      rcases lt_or_le (hopLength fd sr) 0 with h | h
      · rw [if_pos h]
        rfl
      · rw [if_neg (not_lt.mpr h)]
        unfold frameStarts
        rw [List.length_nil]
        have hz : (0 + (hopLength fd sr).toNat - 1) / (hopLength fd sr).toNat = 0 := by
          rcases Nat.eq_zero_or_pos (hopLength fd sr).toNat with hz | hp
          · rw [hz]
          · exact Nat.div_eq_of_lt (by omega)
        rw [hz]
        rfl
    unfold detect_gunshots
    rw [if_neg h0, if_pos hE]

/-- C4 counterexample: the code performs no parameter validation: with the
non-positive sample rate -1 (and frame duration -2) it does not fail with
any error at all, let alone `InvalidParameter` — it returns the timestamp
list `[0]`. -/
theorem detect_no_validation_counterexample :
    detect_gunshots [1, 0, 0, 0] (-1) (-2) (3/5) (3/10) = .ok [0] ∧ (-1 : ℤ) ≤ 0 :=
  ⟨evalD_d, by decide⟩

/-- C4 amended: there is no upfront validation and no `InvalidParameter`
failure; the errors that do occur arise inside the frame computation: a hop
length of zero raises the range-step error (before any energy is computed),
and a negative hop length yields an empty energy array whose max-reduction
raises; other degenerate parameters (such as a negative sample rate whose
product with the frame duration is positive) are not rejected. -/
theorem detect_failure_modes :
    ∀ (y : List ℚ) (sr : ℤ) (fd thr sep : ℚ),
      (hopLength fd sr = 0 → detect_gunshots y sr fd thr sep = .error .rangeZeroStep) ∧
      (hopLength fd sr < 0 → detect_gunshots y sr fd thr sep = .error .emptyMaxReduction) := by
  intro y sr fd thr sep
  constructor
  · intro h0
    unfold detect_gunshots
    rw [if_pos h0]
  · intro hneg
    have hE : frameEnergies y fd sr = [] := by
      unfold frameEnergies
      rw [if_pos hneg]
      rfl
    unfold detect_gunshots
    rw [if_neg (by omega), if_pos hE]

theorem detect_failure_modes_witness :
    hopLength 1 1 = 0 ∧ detect_gunshots [1] 1 1 (3/5) (3/10) = .error .rangeZeroStep :=
  ⟨hhop11, (detect_failure_modes [1] 1 1 (3/5) (3/10)).1 hhop11⟩

/-- C5 counterexample: on the silent signal [0,0,0,0] (frame duration 2,
sample rate 1) the normalised scores are the NaN quotients 0.0/0.0 —
embedded as `none` — not zero, so the claim that every normalised score is
zero fails at this input. -/
theorem silent_scores_not_zero :
    ¬ ((∀ s ∈ normScores [0, 0, 0, 0] 2 1, s = some 0) ∧
       detect_gunshots [0, 0, 0, 0] 1 2 (3/5) (3/10) = .ok []) := by
  intro hc
  have h1 := hc.1 none (by rw [evalN_z]; simp)
  simp at h1

/-- C5 amended: for every nonempty all-zero signal whose parameters let the
pipeline reach the scoring stage (positive hop length), every normalised
score is the NaN quotient 0.0/0.0 (embedded `none`) — in particular not the
zero score the spec asserts — every threshold comparison on it is false, and
`detect_gunshots` returns the empty timestamp list without raising. -/
theorem detect_silent_signal :
    ∀ (y : List ℚ) (sr : ℤ) (fd thr sep : ℚ), y ≠ [] → (∀ x ∈ y, x = 0) →
      0 < hopLength fd sr →
      (∀ s ∈ normScores y fd sr, s = none) ∧
      detect_gunshots y sr fd thr sep = .ok [] := by
  intro y sr fd thr sep hy h0 hhop
  have hEzero : ∀ e ∈ frameEnergies y fd sr, e = 0 := by
    intro e he
    rw [frameEnergies_of_nonneg y fd sr hhop.le] at he
    obtain ⟨i, -, rfl⟩ := List.mem_map.mp he
    exact frameEnergy_zero y i _ h0
  have hmax : pyMax (frameEnergies y fd sr) = 0 := pyMax_eq_zero_of _ hEzero
  have hnorm : ∀ s ∈ normScores y fd sr, s = none := by
    intro s hs
    unfold normScores normalizeScores at hs
    obtain ⟨e, -, rfl⟩ := List.mem_map.mp hs
    rw [if_pos hmax]
  refine ⟨hnorm, ?_⟩
  have hne := frameEnergies_ne_nil y fd sr hy hhop
  have hspikes : spikeIndices (normScores y fd sr) thr = [] := by
    unfold spikeIndices
    apply List.filter_eq_nil_iff.mpr
    intro i _
    rw [getD_none_of_all_none _ hnorm i]
    simp [nanGT]
  have hts : timestampsOf y sr fd thr = [] := by
    unfold timestampsOf
    rw [hspikes]
    rfl
  unfold detect_gunshots
  rw [if_neg (by omega), if_neg hne, hts]
  rfl

theorem detect_silent_signal_witness :
    ([0, 0] : List ℚ) ≠ [] ∧ (∀ x ∈ ([0, 0] : List ℚ), x = 0) ∧ 0 < hopLength 2 1 ∧
    ((∀ s ∈ normScores [0, 0] 2 1, s = none) ∧
     detect_gunshots [0, 0] 1 2 (3/5) (3/10) = .ok []) := by
  refine ⟨by simp, by simp, by rw [hhop21]; decide, ?_⟩
  exact detect_silent_signal [0, 0] 1 2 (3/5) (3/10) (by simp) (by simp)
    (by rw [hhop21]; decide)

/-- C6 counterexample: frame duration 0.5 at sample rate 3 gives
`int(0.5 * 3) = int(1.5) = 1`, while rounding to the nearest integer gives
2: the frame length is truncated toward zero, not rounded. -/
theorem frameLength_not_round :
    frameLength (1/2) 3 = 1 ∧ round ((1/2 : ℚ) * ((3 : ℤ) : ℚ)) = 2 ∧ (1 : ℤ) ≠ 2 := by
  refine ⟨by norm_num [frameLength, truncQ], ?_, by decide⟩
  rw [round_eq]
  norm_num

/-- C6 amended: the frame length is `int(frame_duration * sample_rate)`,
truncation toward zero; on the valid domain (nonnegative product) this is
the floor, which never exceeds the nearest integer but can fall one short of
it. -/
theorem frameLength_truncates :
    ∀ (fd : ℚ) (sr : ℤ), 0 ≤ fd * ((sr : ℤ) : ℚ) →
      frameLength fd sr = ⌊fd * ((sr : ℤ) : ℚ)⌋ ∧
      round (fd * ((sr : ℤ) : ℚ)) - 1 ≤ frameLength fd sr ∧
      frameLength fd sr ≤ round (fd * ((sr : ℤ) : ℚ)) := by
  intro fd sr h
  have h1 : frameLength fd sr = ⌊fd * ((sr : ℤ) : ℚ)⌋ := by
    unfold frameLength truncQ
    rw [if_pos h]
  refine ⟨h1, ?_, ?_⟩
  · rw [h1, round_eq]
    have h2 : ⌊fd * ((sr : ℤ) : ℚ) + 1 / 2⌋ ≤ ⌊fd * ((sr : ℤ) : ℚ) + 1⌋ :=
      Int.floor_le_floor (by linarith)
    rw [Int.floor_add_one] at h2
    omega
  · rw [h1, round_eq]
    exact Int.floor_le_floor (by linarith)

theorem frameLength_truncates_witness :
    (0 : ℚ) ≤ (1/2 : ℚ) * ((5 : ℤ) : ℚ) ∧
    (frameLength (1/2) 5 = ⌊(1/2 : ℚ) * ((5 : ℤ) : ℚ)⌋ ∧
     round ((1/2 : ℚ) * ((5 : ℤ) : ℚ)) - 1 ≤ frameLength (1/2) 5 ∧
     frameLength (1/2) 5 ≤ round ((1/2 : ℚ) * ((5 : ℤ) : ℚ))) :=
  ⟨by norm_num, frameLength_truncates (1/2) 5 (by norm_num)⟩

/-! ## Witnesses for the hypothesised claims -/

theorem detect_output_separated_witness :
    (0 : ℚ) ≤ 3/10 ∧
    List.Pairwise (fun a b => a < b ∧ (3/10 : ℚ) < b - a) [0] :=
  ⟨by norm_num,
    detect_output_separated [1, 0, 0, 0] 1 2 (3/5) (3/10) [0] (by norm_num) evalD_a⟩

theorem detect_threshold_antitone_witness :
    (0 : ℤ) < 1 ∧ (3/5 : ℚ) ≤ 2 ∧ ([] : List ℚ).length ≤ [(0 : ℚ)].length :=
  ⟨by decide, by norm_num,
    detect_threshold_antitone [1, 0, 0, 0] 1 2 (3/5) 2 (3/10) [0] []
      (by decide) (by norm_num) evalD_a evalD2_a⟩

theorem detect_separation_antitone_witness :
    (0 : ℤ) < 1 ∧ (1/2 : ℚ) ≤ 10 ∧ [(0 : ℚ)].length ≤ [(0 : ℚ), 3, 4].length :=
  ⟨by decide, by norm_num,
    detect_separation_antitone [1, 0, 0, 0, 1, 0, 0, 0] 1 2 (3/5) (1/2) 10 [0, 3, 4] [0]
      (by decide) (by norm_num) evalD_b1 evalD_b2⟩

theorem detect_nonzero_nonempty_witness :
    (∃ x ∈ ([1, 0, 0, 0] : List ℚ), x ≠ 0) ∧ (3/5 : ℚ) < 1 ∧ ([(0 : ℚ)] : List ℚ) ≠ [] :=
  ⟨⟨1, by simp, by norm_num⟩, by norm_num,
    detect_nonzero_nonempty [1, 0, 0, 0] 1 2 (3/5) (3/10) [0]
      ⟨1, by simp, by norm_num⟩ (by norm_num) evalD_a⟩

theorem detect_timestamp_form_witness :
    (∃ i : ℕ,
      (0 : ℚ) = round3 ((((i : ℕ) : ℚ) * ((hopLength 2 1 : ℤ) : ℚ)) / (((1 : ℤ) : ℤ) : ℚ)) ∧
      (i : ℤ) * hopLength 2 1 < (([1, 0, 0, 0] : List ℚ).length : ℤ)) ∧
    (0 : ℚ) ≤ 0 ∧
    (0 : ℚ) ≤ (([1, 0, 0, 0] : List ℚ).length : ℚ) / (((1 : ℤ) : ℤ) : ℚ) + 1 / 2000 := by
  exact detect_timestamp_form [1, 0, 0, 0] 1 2 (3/5) (3/10) [0] (by decide) evalD_a 0 (by simp)

end GunshotDetection
